import Mathlib

/-!
Verification of the document-building core of `app.py` (resume builder):
the bold-segment parser `parse_and_format_bullet`, the section locator
`find_section`, the content inserter `add_content_to_section`, and the skill
formatter `parse_and_format_skill` / `add_skills_to_section`.

Python strings are modelled as `List Char`; a docx `Document` is modelled as
the ordered list of its paragraphs, each paragraph an ordered list of runs
together with its paragraph-level format record.  `doc.add_paragraph()`
followed by `doc.paragraphs[i]._p.addprevious(p)` nets out to inserting the
new paragraph at index `i` (appending when `i` is the length), which is what
`insertAt` does.
-/

namespace ResumeApp

/-- Python strings, modelled as lists of characters. -/
abbrev Chars := List Char

/-- The two-character bold delimiter `**` used by `parse_and_format_bullet`. -/
def boldMarker : Chars := ['*', '*']

/-- `bullet_text.split("**")`: Python `str.split` with the fixed two-character
separator `**` — greedy, leftmost-first, non-overlapping.  The `'*' :: '*'`
pattern is the hard-coded separator. -/
def splitMarker : Chars → List Chars
  | [] => [[]]
  | '*' :: '*' :: rest => [] :: splitMarker rest
  | c :: rest =>
    match splitMarker rest with
    | [] => [[c]]
    | p :: ps => (c :: p) :: ps

/-- Number of (greedy, leftmost-first, non-overlapping) occurrences of the
`**` token in a string; the spec's "number of bold-marker tokens". -/
def countMarkers : Chars → Nat
  | [] => 0
  | '*' :: '*' :: rest => countMarkers rest + 1
  | _ :: rest => countMarkers rest

/-- The input with every `**` token (greedy, leftmost-first) removed; the
spec's "input with delimiter tokens removed". -/
def removeMarkers : Chars → Chars
  | [] => []
  | '*' :: '*' :: rest => removeMarkers rest
  | c :: rest => c :: removeMarkers rest

/-- Concatenate a list of strings placing `sep` between adjacent elements
(`sep.join(parts)` in Python terms). -/
def joinSep (sep : Chars) : List Chars → Chars
  | [] => []
  | [p] => p
  | p :: q :: rest => p ++ sep ++ joinSep sep (q :: rest)

/-- One step of the segment loop in `parse_and_format_bullet`: given the pair
`(i, part)` from `enumerate(parts)`, skip empty parts and mark odd-indexed
parts bold (`is_bold = (i % 2 == 1)`). -/
def segStep (ip : Nat × Chars) : Option (Chars × Bool) :=
  if ip.2.isEmpty then none else some (ip.2, ip.1 % 2 == 1)

/-- `parse_and_format_bullet` from `app.py`: split on `**`; when the number
of parts is even (an odd number of `**` tokens) return the whole text unbolded;
otherwise keep the non-empty parts, odd-indexed parts bold. -/
def parse_and_format_bullet (s : Chars) : List (Chars × Bool) :=
  if (splitMarker s).length % 2 = 0 then [(s, false)]
  else (splitMarker s).enum.filterMap segStep

/-- Decompose a string at the first occurrence of `sep`: returns the part
before and the part after the first occurrence, or `none` when `sep` does not
occur.  (Used for Python's `skill_text.split(":", 1)`.) -/
def splitFirst (sep : Chars) : Chars → Option (Chars × Chars)
  | [] => none
  | c :: rest =>
    if List.isPrefixOf sep (c :: rest) then some ([], (c :: rest).drop sep.length)
    else
      match splitFirst sep rest with
      | none => none
      | some pp => some (c :: pp.1, pp.2)

/-- Python's substring test `needle in hay` (contiguous substring). -/
def containsSub (needle : Chars) : Chars → Bool
  | [] => needle.isEmpty
  | c :: rest => List.isPrefixOf needle (c :: rest) || containsSub needle rest

/-- `parse_and_format_skill` from `app.py`: delegate to the bullet parser when
`**` occurs; else split at the first colon, bolding the part up to and
including it; else a single unbolded segment.  (The `none` branch mirrors the
dead fall-through after Python's always-true `len(parts) == 2` check.) -/
def parse_and_format_skill (s : Chars) : List (Chars × Bool) :=
  if containsSub boldMarker s then parse_and_format_bullet s
  else if containsSub [':'] s then
    match splitFirst [':'] s with
    | some pp => [(pp.1 ++ [':'], true), (pp.2, false)]
    | none => [(s, false)]
  else [(s, false)]

/-- The boldness pattern claimed by the spec: the flags in the list alternate,
the first one equal to `e`. -/
def altFrom : Bool → List Bool → Bool
  | _, [] => true
  | e, b :: rest => (b == e) && altFrom (!e) rest

/-- Re-render a segment list to a flat string, re-inserting `**` around each
bold segment — the reconstruction used in the spec's round-trip property. -/
def renderSegments (segs : List (Chars × Bool)) : Chars :=
  (segs.map (fun seg => if seg.2 then boldMarker ++ seg.1 ++ boldMarker else seg.1)).flatten

/-- A docx run: a span of text with one formatting record.  Sizes are stored
in hundredths of a point, so `Pt(11)` is `1100` and `Pt(0.5)` is `50`.
Fields the code does not set stay `none`. -/
structure Run where
  text : Chars
  bold : Option Bool := none
  italic : Option Bool := none
  fontName : Option Chars := none
  fontSize : Option Nat := none
deriving DecidableEq

/-- Paragraph-level format: line spacing (in hundredths, `1.0` is `100`) and
space before/after (hundredths of a point). -/
structure ParaFormat where
  lineSpacing : Option Nat := none
  spaceBefore : Option Nat := none
  spaceAfter : Option Nat := none
deriving DecidableEq

/-- A docx paragraph: an ordered list of runs plus its format record. -/
structure Paragraph where
  runs : List Run
  fmt : ParaFormat := {}
deriving DecidableEq

/-- `para.text` in python-docx: the concatenation of the run texts. -/
def Paragraph.text (p : Paragraph) : Chars := (p.runs.map Run.text).flatten

/-- Python's `str.upper()`, character-wise. -/
def upperChars (s : Chars) : Chars := s.map Char.toUpper

/-- Python's `str.strip()`: remove leading and trailing whitespace. -/
def stripChars (s : Chars) : Chars :=
  ((s.dropWhile Char.isWhitespace).reverse.dropWhile Char.isWhitespace).reverse

/-- The test `section_title.upper() in para.text.strip().upper()` from
`find_section`. -/
def matchesTitle (title : Chars) (p : Paragraph) : Bool :=
  containsSub (upperChars title) (upperChars (stripChars p.text))

/-- The scan loop of `find_section`, carrying the running index `i`. -/
def findSectionAux (title : Chars) : List Paragraph → Nat → Int
  | [], _ => -1
  | p :: rest, i =>
    if matchesTitle title p then (i : Int) else findSectionAux title rest (i + 1)

/-- `find_section` from `app.py`: index of the first paragraph whose stripped,
upper-cased text contains the upper-cased title, `-1` if none. -/
def find_section (doc : List Paragraph) (title : Chars) : Int :=
  findSectionAux title doc 0

/-- Font name `"Times New Roman"` used for every run the code creates. -/
def timesNewRoman : Chars := "Times New Roman".toList

/-- The literal prefix `bullet_para.add_run("‚Ä¢ ")` writes before each bullet:
the three characters present in `app.py` (a mojibake-encoded bullet glyph)
followed by a space. -/
def bulletMark : Chars := ['‚', 'Ä', '¢', ' ']

/-- The title paragraph built per group: one run, Times New Roman 12pt,
italic, bold, with paragraph space-after 0. -/
def titleParagraph (t : Chars) : Paragraph :=
  { runs := [{ text := t, bold := some true, italic := some true,
               fontName := some timesNewRoman, fontSize := some 1200 }],
    fmt := { spaceAfter := some 0 } }

/-- The bullet paragraph built per bullet string: a leading glyph run (bold
not set), then one run per parsed segment with the segment's bold flag; line
spacing single, space-after 0. -/
def bulletParagraph (b : Chars) : Paragraph :=
  { runs := { text := bulletMark, fontName := some timesNewRoman, fontSize := some 1100 } ::
      (parse_and_format_bullet b).map
        (fun seg => { text := seg.1, bold := some seg.2,
                      fontName := some timesNewRoman, fontSize := some 1100 }),
    fmt := { lineSpacing := some 100, spaceAfter := some 0 } }

/-- The empty spacer paragraph inserted between groups: no runs, space-after
`Pt(0.5)` (= 50 hundredths). -/
def spacerParagraph : Paragraph := { runs := [], fmt := { spaceAfter := some 50 } }

/-- The paragraph built per skill line: one run per parsed skill segment;
space before/after 0, line spacing single. -/
def skillParagraph (s : Chars) : Paragraph :=
  { runs := (parse_and_format_skill s).map
      (fun seg => { text := seg.1, bold := some seg.2,
                    fontName := some timesNewRoman, fontSize := some 1100 }),
    fmt := { lineSpacing := some 100, spaceBefore := some 0, spaceAfter := some 0 } }

/-- Insert a paragraph at index `i` (before the paragraph currently at `i`;
appends when `i` is the document length) — the net effect of
`doc.add_paragraph()` + `addprevious` in the code. -/
def insertAt (doc : List Paragraph) (i : Nat) (p : Paragraph) : List Paragraph :=
  doc.take i ++ p :: doc.drop i

/-- Insert one paragraph at the cursor and advance the cursor — the
`addprevious(p); current_idx += 1` step. -/
def pushPara (st : List Paragraph × Nat) (p : Paragraph) : List Paragraph × Nat :=
  (insertAt st.1 st.2 p, st.2 + 1)

/-- One group of the content payload: the items of one `{title: bullets}`
mapping, in insertion order (the payload schema uses single-key mappings). -/
abbrev ContentItem := List (Chars × List Chars)

/-- The paragraphs one `(title, bullets)` entry contributes, in order: its
title paragraph followed by one bullet paragraph per bullet. -/
def entryParas (tb : Chars × List Chars) : List Paragraph :=
  titleParagraph tb.1 :: tb.2.map bulletParagraph

/-- The unconditional part of the body of the
`for title, bullets in item.items():` loop: insert the entry's title
paragraph at the cursor, then one bullet paragraph per bullet. -/
def insertEntry (st : List Paragraph × Nat) (tb : Chars × List Chars) :
    List Paragraph × Nat :=
  tb.2.foldl (fun st b => pushPara st (bulletParagraph b))
    (pushPara st (titleParagraph tb.1))

/-- The full body of the `for title, bullets in item.items():` loop: insert
the entry's paragraphs and then — since the `if item != content_json[-1]`
check is indented inside this loop — a spacer paragraph unless the enclosing
item equals the last element of the payload (`isLast`). -/
def entryStep (isLast : Prop) [Decidable isLast] (st : List Paragraph × Nat)
    (tb : Chars × List Chars) : List Paragraph × Nat :=
  if isLast then insertEntry st tb else pushPara (insertEntry st tb) spacerParagraph

/-- One iteration of the outer `for item in content_json:` loop: run the
entry loop over the item's `(title, bullets)` entries, each entry followed by
a spacer exactly when the item differs from the payload's last element. -/
def contentStep (last : Option ContentItem) (st : List Paragraph × Nat)
    (item : ContentItem) : List Paragraph × Nat :=
  item.foldl (entryStep (last = some item)) st

/-- `add_content_to_section` from `app.py`: locate the section; on failure
return `False` leaving the document unchanged; otherwise splice the rendered
groups starting right after the section title and return `True`. -/
def add_content_to_section (doc : List Paragraph) (title : Chars)
    (content : List ContentItem) : Bool × List Paragraph :=
  if find_section doc title = -1 then (false, doc)
  else
    (true,
      (content.foldl (contentStep content.getLast?)
        (doc, (find_section doc title).toNat + 1)).1)

/-- `add_skills_to_section` from `app.py`: locate the section; on failure
return `False`; otherwise insert one skill paragraph per line starting right
after the section title and return `True`. -/
def add_skills_to_section (doc : List Paragraph) (title : Chars)
    (skills : List Chars) : Bool × List Paragraph :=
  if find_section doc title = -1 then (false, doc)
  else
    (true,
      (skills.foldl (fun st sk => pushPara st (skillParagraph sk))
        (doc, (find_section doc title).toNat + 1)).1)

/-- The paragraphs one content group contributes once spacers are
disregarded: for each of its `(title, bullets)` entries in order, a title
paragraph followed by one bullet paragraph per bullet. -/
def itemParas (item : ContentItem) : List Paragraph :=
  item.flatMap entryParas

/-- The paragraph block one payload item inserts, given the (constant) last
element of the payload: each entry's paragraphs, each followed by a spacer
when the item is not equal to the last one (the spacer check runs once per
entry, inside the entries loop). -/
def renderItem (last : Option ContentItem) (item : ContentItem) : List Paragraph :=
  item.flatMap fun tb =>
    entryParas tb ++ (if last = some item then [] else [spacerParagraph])

/-- The full paragraph block the outer loop inserts, given the (constant)
last element of the payload. -/
def renderWith (last : Option ContentItem) (content : List ContentItem) : List Paragraph :=
  content.flatMap (renderItem last)

/-- The paragraph block `add_content_to_section` inserts for a payload. -/
def renderContent (content : List ContentItem) : List Paragraph :=
  renderWith content.getLast? content

/-- Modelled from the spec's claim wording for spacer placement: one spacer
after every group at an index other than the final index. -/
def positionalRender (content : List ContentItem) : List Paragraph :=
  content.dropLast.flatMap (fun item => itemParas item ++ [spacerParagraph])
    ++ (match content.getLast? with
        | none => []
        | some item => itemParas item)

/-- Modelled from the spec's wording for `find_section`: the index of the
first paragraph satisfying the predicate. -/
def firstMatchIdx (pred : Paragraph → Bool) : List Paragraph → Option Nat
  | [] => none
  | p :: rest => if pred p then some 0 else (firstMatchIdx pred rest).map (· + 1)

def expTitle : Chars := "EXPERIENCE".toList

def expDoc : List Paragraph :=
  [{ runs := [{ text := "EXPERIENCE".toList }] },
   { runs := [{ text := "Older entry".toList }] }]

def eduDoc : List Paragraph := [{ runs := [{ text := "EDUCATION".toList }] }]

def roleA : ContentItem := [("Role A".toList, ["b1".toList, "b2".toList])]

def roleB : ContentItem := [("Role B".toList, ["b3".toList])]

def demoContent : List ContentItem := [roleA, roleB]

def dupItem : ContentItem := [("Dup".toList, [])]

def midItem : ContentItem := [("Mid".toList, [])]

def skillsTitle : Chars := "TECHNICAL SKILLS".toList

def skillsDoc : List Paragraph := [{ runs := [{ text := "TECHNICAL SKILLS".toList }] }]

def demoSkills : List Chars := ["**Languages:** Java".toList, "Tools: Git".toList]

lemma splitMarker_other (c : Char) (rest : Chars)
    (h : ∀ r, c = '*' → rest = '*' :: r → False) :
    splitMarker (c :: rest) =
      match splitMarker rest with
      | [] => [[c]]
      | p :: ps => (c :: p) :: ps := by
  rw [splitMarker.eq_def]
  split
  · simp_all
  · rename_i r heq
    rw [List.cons.injEq] at heq
    exact absurd (h r heq.1 heq.2) id
  · rename_i c' rest' _ heq
    injection heq with h1 h2
    subst h1; subst h2; rfl

lemma countMarkers_other (c : Char) (rest : Chars)
    (h : ∀ r, c = '*' → rest = '*' :: r → False) :
    countMarkers (c :: rest) = countMarkers rest := by
  rw [countMarkers.eq_def]
  split
  · simp_all
  · rename_i r heq
    rw [List.cons.injEq] at heq
    exact absurd (h r heq.1 heq.2) id
  · rename_i c' rest' heq
    injection heq with h1 h2
    rw [h2]

lemma removeMarkers_other (c : Char) (rest : Chars)
    (h : ∀ r, c = '*' → rest = '*' :: r → False) :
    removeMarkers (c :: rest) = c :: removeMarkers rest := by
  rw [removeMarkers.eq_def]
  split
  · simp_all
  · rename_i r heq
    rw [List.cons.injEq] at heq
    exact absurd (h r heq.1 heq.2) id
  · rename_i c' rest' heq
    injection heq with h1 h2
    rw [h1, h2]

lemma splitMarker_ne_nil (s : Chars) : splitMarker s ≠ [] := by
  induction s using splitMarker.induct with
  | case1 => simp [splitMarker]
  | case2 rest ih => simp [splitMarker]
  | case3 c rest hno h0 ih =>
    rw [splitMarker_other c rest hno, h0]
    simp
  | case4 c rest hno p ps hsplit ih =>
    rw [splitMarker_other c rest hno, hsplit]
    simp

lemma length_splitMarker (s : Chars) :
    (splitMarker s).length = countMarkers s + 1 := by
  induction s using splitMarker.induct with
  | case1 => simp [splitMarker, countMarkers]
  | case2 rest ih => simp [splitMarker, countMarkers, ih]
  | case3 c rest hno h0 ih => exact absurd h0 (splitMarker_ne_nil rest)
  | case4 c rest hno p ps hsplit ih =>
    rw [splitMarker_other c rest hno, hsplit, countMarkers_other c rest hno]
    rw [hsplit] at ih
    simpa using ih

lemma flatten_splitMarker (s : Chars) :
    (splitMarker s).flatten = removeMarkers s := by
  induction s using splitMarker.induct with
  | case1 => simp [splitMarker, removeMarkers]
  | case2 rest ih => simp [splitMarker, removeMarkers, ih]
  | case3 c rest hno h0 ih => exact absurd h0 (splitMarker_ne_nil rest)
  | case4 c rest hno p ps hsplit ih =>
    rw [splitMarker_other c rest hno, hsplit, removeMarkers_other c rest hno]
    rw [hsplit] at ih
    simp only [List.flatten_cons] at ih ⊢
    rw [← ih]
    simp

lemma joinSep_cons (sep : Chars) (p : Chars) (l : List Chars) (h : l ≠ []) :
    joinSep sep (p :: l) = p ++ sep ++ joinSep sep l := by
  cases l with
  | nil => exact absurd rfl h
  | cons q rest => rfl

lemma joinSep_splitMarker (s : Chars) :
    joinSep boldMarker (splitMarker s) = s := by
  induction s using splitMarker.induct with
  | case1 => simp [splitMarker, joinSep]
  | case2 rest ih =>
    rw [splitMarker.eq_def]
    simp only []
    rw [joinSep_cons _ _ _ (splitMarker_ne_nil rest), ih]
    rfl
  | case3 c rest hno h0 ih => exact absurd h0 (splitMarker_ne_nil rest)
  | case4 c rest hno p ps hsplit ih =>
    rw [splitMarker_other c rest hno, hsplit]
    rw [hsplit] at ih
    cases ps with
    | nil =>
      simp only [joinSep] at ih ⊢
      rw [ih]
    | cons q ps =>
      rw [joinSep_cons _ _ _ (by simp)] at ih
      rw [joinSep_cons _ _ _ (by simp), ← ih]
      simp

lemma enumFrom_cons (n : Nat) (p : Chars) (rest : List Chars) :
    List.enumFrom n (p :: rest) = (n, p) :: List.enumFrom (n + 1) rest := rfl

lemma flatten_texts_filterMap (parts : List Chars) :
    ∀ n : Nat,
      (((List.enumFrom n parts).filterMap segStep).map Prod.fst).flatten
        = parts.flatten := by
  induction parts with
  | nil => intro n; rfl
  | cons p rest ih =>
    intro n
    cases p with
    | nil =>
      rw [enumFrom_cons, List.filterMap_cons_none (by simp [segStep])]
      simp [ih (n + 1)]
    | cons c q =>
      rw [enumFrom_cons,
        List.filterMap_cons_some (show segStep (n, c :: q) = some (c :: q, n % 2 == 1) from by
          simp [segStep])]
      simp [ih (n + 1)]

lemma succ_mod_two_beq (n : Nat) : ((n + 1) % 2 == 1) = !(n % 2 == 1) := by
  rcases Nat.mod_two_eq_zero_or_one n with h | h
  · have h1 : (n + 1) % 2 = 1 := by omega
    rw [h1, h]; rfl
  · have h1 : (n + 1) % 2 = 0 := by omega
    rw [h1, h]; rfl

lemma isEmpty_false_of_ne_nil {p : Chars} (h : p ≠ []) : p.isEmpty = false := by
  cases p with
  | nil => exact absurd rfl h
  | cons c q => rfl

lemma altFrom_filterMap (parts : List Chars) :
    ∀ n : Nat, (∀ p ∈ parts, p ≠ []) →
      altFrom (n % 2 == 1)
        (((List.enumFrom n parts).filterMap segStep).map Prod.snd) = true := by
  induction parts with
  | nil => intro n _; rfl
  | cons p rest ih =>
    intro n h
    have hp : p.isEmpty = false := isEmpty_false_of_ne_nil (h p (List.mem_cons_self _ _))
    rw [enumFrom_cons,
      List.filterMap_cons_some (show segStep (n, p) = some (p, n % 2 == 1) from by
        simp [segStep, hp]),
      List.map_cons]
    simp only [altFrom, beq_self_eq_true, Bool.true_and]
    rw [← succ_mod_two_beq n]
    exact ih (n + 1) (fun q hq => h q (List.mem_cons_of_mem _ hq))

lemma filterMap_segStep_eq_map (parts : List Chars) :
    ∀ n : Nat, (∀ p ∈ parts, p ≠ []) →
      (List.enumFrom n parts).filterMap segStep
        = (List.enumFrom n parts).map (fun ip => (ip.2, ip.1 % 2 == 1)) := by
  induction parts with
  | nil => intro n _; rfl
  | cons p rest ih =>
    intro n h
    have hp : p.isEmpty = false := isEmpty_false_of_ne_nil (h p (List.mem_cons_self _ _))
    rw [enumFrom_cons,
      List.filterMap_cons_some (show segStep (n, p) = some (p, n % 2 == 1) from by
        simp [segStep, hp]),
      List.map_cons]
    rw [ih (n + 1) (fun q hq => h q (List.mem_cons_of_mem _ hq))]

lemma renderSegments_cons (s : Chars × Bool) (segs : List (Chars × Bool)) :
    renderSegments (s :: segs)
      = (if s.2 then boldMarker ++ s.1 ++ boldMarker else s.1) ++ renderSegments segs := by
  simp [renderSegments]

lemma renderParity (parts : List Chars) :
    ∀ n : Nat,
      ((n % 2 = 0 → parts.length % 2 = 1 →
        renderSegments ((List.enumFrom n parts).map (fun ip => (ip.2, ip.1 % 2 == 1)))
          = joinSep boldMarker parts) ∧
       (n % 2 = 1 → parts.length % 2 = 0 → parts ≠ [] →
        renderSegments ((List.enumFrom n parts).map (fun ip => (ip.2, ip.1 % 2 == 1)))
          = boldMarker ++ joinSep boldMarker parts)) := by
  induction parts with
  | nil =>
    intro n
    refine ⟨fun _ hlen => by simp at hlen, fun _ _ hne => absurd rfl hne⟩
  | cons p rest ih =>
    intro n
    constructor
    · intro hn hlen
      have hb : (n % 2 == 1) = false := by rw [hn]; rfl
      rw [enumFrom_cons, List.map_cons, renderSegments_cons]
      simp only [hb, Bool.false_eq_true, if_false]
      cases rest with
      | nil => simp [renderSegments, joinSep]
      | cons q rest' =>
        have hlen' : (q :: rest').length % 2 = 0 := by
          simp only [List.length_cons] at hlen ⊢; omega
        have hr := (ih (n + 1)).2 (by omega) hlen' (by simp)
        rw [hr, joinSep_cons boldMarker p (q :: rest') (by simp)]
        simp [List.append_assoc]
    · intro hn hlen hne
      have hb : (n % 2 == 1) = true := by rw [hn]; rfl
      rw [enumFrom_cons, List.map_cons, renderSegments_cons]
      simp only [hb, if_true]
      have hlen' : rest.length % 2 = 1 := by
        simp only [List.length_cons] at hlen; omega
      have hrne : rest ≠ [] := by
        intro hc; rw [hc] at hlen'; simp at hlen'
      have hr := (ih (n + 1)).1 (by omega) hlen'
      rw [hr, joinSep_cons boldMarker p rest hrne]
      simp [List.append_assoc]

lemma isPrefixOf_single (ch c : Char) (l : Chars) :
    List.isPrefixOf [ch] (c :: l) = (ch == c) := by
  simp [List.isPrefixOf]

lemma splitFirst_single_eq (ch : Char) (s : Chars) :
    ∀ pre post, splitFirst [ch] s = some (pre, post) →
      s = pre ++ ch :: post ∧ ch ∉ pre := by
  induction s with
  | nil => intro pre post h; simp [splitFirst] at h
  | cons c rest ih =>
    intro pre post h
    rw [splitFirst] at h
    by_cases hpre : List.isPrefixOf [ch] (c :: rest) = true
    · rw [if_pos hpre] at h
      rw [isPrefixOf_single, beq_iff_eq] at hpre
      simp only [List.length_cons, List.length_nil, List.drop_succ_cons, List.drop_zero,
        Option.some.injEq, Prod.mk.injEq] at h
      obtain ⟨h1, h2⟩ := h
      subst h1; subst h2
      simp [hpre]
    · rw [if_neg hpre] at h
      cases hsf : splitFirst [ch] rest with
      | none => rw [hsf] at h; simp at h
      | some pp =>
        rw [hsf] at h
        simp only [Option.some.injEq, Prod.mk.injEq] at h
        obtain ⟨h1, h2⟩ := h
        obtain ⟨hs, hmem⟩ := ih pp.1 pp.2 (by rw [hsf])
        rw [isPrefixOf_single] at hpre
        have hne : ch ≠ c := by
          intro he; exact hpre (by rw [he, beq_self_eq_true])
        subst h1; subst h2
        constructor
        · rw [hs]; rfl
        · intro hm
          rcases List.mem_cons.mp hm with he | hm'
          · exact hne he
          · exact hmem hm'

lemma splitFirst_single_of (ch : Char) :
    ∀ (pre post : Chars), ch ∉ pre →
      splitFirst [ch] (pre ++ ch :: post) = some (pre, post) := by
  intro pre
  induction pre with
  | nil =>
    intro post _
    simp [splitFirst, isPrefixOf_single]
  | cons c pre ih =>
    intro post h
    have hne : ch ≠ c := fun he => h (by rw [he]; exact List.mem_cons_self _ _)
    have hmem : ch ∉ pre := fun hm => h (List.mem_cons_of_mem _ hm)
    rw [List.cons_append, splitFirst,
      if_neg (by rw [isPrefixOf_single]; simp [hne]), ih post hmem]

lemma containsSub_append_single (ch : Char) :
    ∀ (pre post : Chars), containsSub [ch] (pre ++ ch :: post) = true := by
  intro pre
  induction pre with
  | nil =>
    intro post
    simp [containsSub, isPrefixOf_single]
  | cons c pre ih =>
    intro post
    rw [List.cons_append, containsSub, ih post, Bool.or_true]

lemma findSectionAux_spec (title : Chars) (l : List Paragraph) :
    ∀ i : Nat,
      findSectionAux title l i =
        match firstMatchIdx (matchesTitle title) l with
        | none => -1
        | some k => ((i + k : Nat) : Int) := by
  induction l with
  | nil => intro i; rfl
  | cons p rest ih =>
    intro i
    rw [findSectionAux, firstMatchIdx]
    by_cases hp : matchesTitle title p
    · rw [if_pos hp, if_pos hp]
      simp
    · rw [if_neg hp, if_neg hp, ih (i + 1)]
      cases hm : firstMatchIdx (matchesTitle title) rest with
      | none => rfl
      | some k =>
        simp only [Option.map_some]
        show ((i + 1 + k : Nat) : Int) = ((i + (k + 1) : Nat) : Int)
        omega

lemma firstMatchIdx_lt (pred : Paragraph → Bool) (l : List Paragraph) :
    ∀ k, firstMatchIdx pred l = some k → k < l.length := by
  induction l with
  | nil => intro k h; simp [firstMatchIdx] at h
  | cons p rest ih =>
    intro k h
    rw [firstMatchIdx] at h
    by_cases hp : pred p
    · rw [if_pos hp] at h
      injection h with h
      subst h; simp
    · rw [if_neg hp] at h
      cases hm : firstMatchIdx pred rest with
      | none => rw [hm] at h; simp [Option.map] at h
      | some k' =>
        rw [hm] at h
        have h2 : some (k' + 1) = some k := h
        injection h2 with h2
        have := ih k' hm
        simp only [List.length_cons]
        omega

lemma find_section_toNat_lt (doc : List Paragraph) (title : Chars)
    (h : find_section doc title ≠ -1) :
    (find_section doc title).toNat < doc.length := by
  have hs := findSectionAux_spec title doc 0
  rw [find_section] at h ⊢
  cases hm : firstMatchIdx (matchesTitle title) doc with
  | none => rw [hm] at hs; exact absurd hs h
  | some k =>
    rw [hm] at hs
    rw [hs]
    simpa using firstMatchIdx_lt _ doc k hm

lemma foldl_pushPara (ps : List Paragraph) :
    ∀ (doc : List Paragraph) (i : Nat), i ≤ doc.length →
      ps.foldl pushPara (doc, i) = (doc.take i ++ ps ++ doc.drop i, i + ps.length) := by
  induction ps with
  | nil =>
    intro doc i h
    simp
  | cons p ps ih =>
    intro doc i h
    rw [List.foldl_cons]
    have hpush : pushPara (doc, i) p = (insertAt doc i p, i + 1) := rfl
    rw [hpush, ih (insertAt doc i p) (i + 1) (by simp [insertAt]; omega)]
    have hlen : (doc.take i).length = i := by simp; omega
    have htake : (insertAt doc i p).take (i + 1) = doc.take i ++ [p] := by
      rw [insertAt, List.take_append_eq_append_take, List.take_of_length_le (by omega),
        hlen]
      simp
    have hdrop : (insertAt doc i p).drop (i + 1) = doc.drop i := by
      rw [insertAt, List.drop_append_eq_append_drop, List.drop_of_length_le (by omega),
        hlen]
      simp
    rw [htake, hdrop]
    simp only [List.append_assoc, List.singleton_append, List.length_cons,
      Prod.mk.injEq]
    exact ⟨by trivial, by omega⟩

lemma insertEntry_eq_foldl (st : List Paragraph × Nat) (tb : Chars × List Chars) :
    insertEntry st tb = (entryParas tb).foldl pushPara st := by
  rw [insertEntry, ← List.foldl_map, entryParas, List.foldl_cons]

lemma entryStep_eq (c : Prop) [Decidable c] (st : List Paragraph × Nat)
    (tb : Chars × List Chars) :
    entryStep c st tb
      = ((entryParas tb ++ if c then [] else [spacerParagraph]).foldl pushPara st) := by
  by_cases h : c
  · rw [entryStep, if_pos h, if_pos h, List.append_nil, insertEntry_eq_foldl]
  · rw [entryStep, if_neg h, if_neg h, List.foldl_append, insertEntry_eq_foldl]
    rfl

lemma contentStep_eq_foldl (last : Option ContentItem) (item : ContentItem) :
    ∀ st : List Paragraph × Nat,
      contentStep last st item = (renderItem last item).foldl pushPara st := by
  suffices h : ∀ (l : List (Chars × List Chars)) (st : List Paragraph × Nat),
      l.foldl (entryStep (last = some item)) st
        = (l.flatMap fun tb =>
            entryParas tb ++ if last = some item then [] else [spacerParagraph]).foldl
            pushPara st by
    intro st
    rw [contentStep, renderItem]
    exact h item st
  intro l
  induction l with
  | nil => intro st; rfl
  | cons tb l ih =>
    intro st
    simp only [List.foldl_cons, List.flatMap_cons, List.foldl_append, entryStep_eq, ih]

lemma foldl_contentStep (last : Option ContentItem) (content : List ContentItem) :
    ∀ st : List Paragraph × Nat,
      content.foldl (contentStep last) st = (renderWith last content).foldl pushPara st := by
  induction content with
  | nil => intro st; rfl
  | cons item content ih =>
    intro st
    rw [List.foldl_cons, ih,
      show renderWith last (item :: content)
          = renderItem last item ++ renderWith last content from by
        simp [renderWith],
      List.foldl_append, contentStep_eq_foldl]

lemma add_content_found (doc : List Paragraph) (title : Chars) (content : List ContentItem)
    (h : find_section doc title ≠ -1) :
    add_content_to_section doc title content
      = (true, doc.take ((find_section doc title).toNat + 1) ++ renderContent content
          ++ doc.drop ((find_section doc title).toNat + 1)) := by
  rw [add_content_to_section, if_neg h]
  rw [foldl_contentStep content.getLast? content]
  rw [foldl_pushPara (renderWith content.getLast? content) doc
    ((find_section doc title).toNat + 1)
    (by have := find_section_toNat_lt doc title h; omega)]
  rfl

lemma add_skills_found (doc : List Paragraph) (title : Chars) (skills : List Chars)
    (h : find_section doc title ≠ -1) :
    add_skills_to_section doc title skills
      = (true, doc.take ((find_section doc title).toNat + 1) ++ skills.map skillParagraph
          ++ doc.drop ((find_section doc title).toNat + 1)) := by
  rw [add_skills_to_section, if_neg h]
  rw [← List.foldl_map skillParagraph pushPara skills
    (doc, (find_section doc title).toNat + 1)]
  rw [foldl_pushPara (skills.map skillParagraph) doc ((find_section doc title).toNat + 1)
    (by have := find_section_toNat_lt doc title h; omega)]

lemma titleParagraph_ne_spacer (t : Chars) : titleParagraph t ≠ spacerParagraph := by
  intro hc
  have h := congrArg Paragraph.runs hc
  simp [titleParagraph, spacerParagraph] at h

lemma bulletParagraph_ne_spacer (b : Chars) : bulletParagraph b ≠ spacerParagraph := by
  intro hc
  have h := congrArg Paragraph.runs hc
  simp [bulletParagraph, spacerParagraph] at h

lemma entryParas_ne_spacer (tb : Chars × List Chars) :
    ∀ p ∈ entryParas tb, (!(p == spacerParagraph)) = true := by
  intro p hp
  simp only [entryParas] at hp
  rcases List.mem_cons.mp hp with hequ | hmem'
  · rw [hequ]
    have hne := titleParagraph_ne_spacer tb.1
    simp [hne]
  · rcases List.mem_map.mp hmem' with ⟨b, _, hb⟩
    rw [← hb]
    have hne := bulletParagraph_ne_spacer b
    simp [hne]

lemma filter_itemParas (item : ContentItem) :
    (itemParas item).filter (fun p => !(p == spacerParagraph)) = itemParas item := by
  apply List.filter_eq_self.mpr
  intro p hp
  rcases List.mem_flatMap.mp hp with ⟨tb, _, hmem⟩
  exact entryParas_ne_spacer tb p hmem

lemma filter_renderEntries (c : Prop) [Decidable c] (l : List (Chars × List Chars)) :
    (l.flatMap fun tb => entryParas tb ++ if c then [] else [spacerParagraph]).filter
        (fun p => !(p == spacerParagraph))
      = l.flatMap entryParas := by
  induction l with
  | nil => rfl
  | cons tb l ih =>
    simp only [List.flatMap_cons, List.filter_append, ih]
    rw [List.filter_eq_self.mpr (entryParas_ne_spacer tb)]
    have h2 : (if c then ([] : List Paragraph) else [spacerParagraph]).filter
        (fun p => !(p == spacerParagraph)) = [] := by
      by_cases hc : c
      · rw [if_pos hc]; rfl
      · rw [if_neg hc]
        simp
    rw [h2]
    simp

lemma filter_renderItem (last : Option ContentItem) (item : ContentItem) :
    (renderItem last item).filter (fun p => !(p == spacerParagraph)) = itemParas item := by
  rw [renderItem, itemParas]
  exact filter_renderEntries (last = some item) item

lemma filter_renderWith (last : Option ContentItem) (content : List ContentItem) :
    (renderWith last content).filter (fun p => !(p == spacerParagraph))
      = content.flatMap itemParas := by
  induction content with
  | nil => rfl
  | cons item content ih =>
    rw [show renderWith last (item :: content)
        = renderItem last item ++ renderWith last content from by simp [renderWith]]
    rw [List.filter_append, ih, filter_renderItem]
    simp [List.flatMap_cons]

lemma renderItem_last (last : Option ContentItem) (item : ContentItem)
    (h : last = some item) : renderItem last item = itemParas item := by
  rw [renderItem, itemParas]
  simp [h]

lemma renderItem_single (last : Option ContentItem) (tb : Chars × List Chars)
    (h : last ≠ some [tb]) :
    renderItem last [tb] = itemParas [tb] ++ [spacerParagraph] := by
  rw [renderItem, itemParas]
  simp [if_neg h]

lemma renderWith_positional (content : List ContentItem) :
    (∀ item ∈ content.dropLast, content.getLast? ≠ some item) →
    (∀ item ∈ content.dropLast, item.length = 1) →
      renderContent content = positionalRender content := by
  induction content with
  | nil => intro _ _; rfl
  | cons item content ih =>
    intro hdist hsingle
    cases content with
    | nil =>
      rw [renderContent,
        show renderWith ([item].getLast?) [item] = renderItem (some item) item from by
          simp [renderWith],
        renderItem_last (some item) item rfl, positionalRender]
      simp
    | cons c2 rest =>
      have hlast : (item :: c2 :: rest).getLast? = (c2 :: rest).getLast? :=
        List.getLast?_cons_cons
      have hitem : (c2 :: rest).getLast? ≠ some item := by
        have := hdist item (by
          rw [List.dropLast_cons_of_ne_nil (by simp)]
          exact List.mem_cons_self _ _)
        rwa [hlast] at this
      obtain ⟨tb, rfl⟩ : ∃ tb, item = [tb] := by
        have hlen1 : item.length = 1 := hsingle item (by
          rw [List.dropLast_cons_of_ne_nil (by simp)]
          exact List.mem_cons_self _ _)
        cases item with
        | nil => simp at hlen1
        | cons tb t =>
          cases t with
          | nil => exact ⟨tb, rfl⟩
          | cons u t' => simp at hlen1
      have hih := ih
        (by
          intro it hit
          have := hdist it (by
            rw [List.dropLast_cons_of_ne_nil (by simp)]
            exact List.mem_cons_of_mem _ hit)
          rwa [hlast] at this)
        (by
          intro it hit
          exact hsingle it (by
            rw [List.dropLast_cons_of_ne_nil (by simp)]
            exact List.mem_cons_of_mem _ hit))
      rw [renderContent] at hih ⊢
      rw [show renderWith (([tb] :: c2 :: rest).getLast?) ([tb] :: c2 :: rest)
          = renderItem (([tb] :: c2 :: rest).getLast?) [tb]
              ++ renderWith (([tb] :: c2 :: rest).getLast?) (c2 :: rest) from by
        simp [renderWith]]
      rw [hlast, renderItem_single _ tb hitem, hih]
      rw [show positionalRender ([tb] :: c2 :: rest)
          = (itemParas [tb] ++ [spacerParagraph]) ++ positionalRender (c2 :: rest) from by
        rw [positionalRender, positionalRender,
          List.dropLast_cons_of_ne_nil (by simp), List.flatMap_cons, hlast]
        simp]

/-- Claim C1, counterexample: `"**a**"` has an even number (two) of `**`
tokens, yet the parser returns the single segment `("a", bold)`, so the
boldness flags do not alternate starting with `false` — the first (and only)
flag is `true`.  The claim as stated is therefore false. -/
theorem claim_C1_counterexample :
    countMarkers ("**a**".toList) % 2 = 0 ∧
    parse_and_format_bullet ("**a**".toList) = [("a".toList, true)] ∧
    altFrom false ((parse_and_format_bullet ("**a**".toList)).map Prod.snd) = false := by
  refine ⟨by decide, by decide, by decide⟩

/-- Claim C1, amended: for well-formed input (even `**` count) the
concatenated segment texts equal the input with all `**` tokens removed; the
boldness flags alternate starting with `false` provided no empty split part
is dropped (adjacent or leading/trailing delimiters produce empty parts whose
flags are skipped, which breaks the alternation). -/
theorem claim_C1 (s : Chars) (h : countMarkers s % 2 = 0) :
    ((parse_and_format_bullet s).map Prod.fst).flatten = removeMarkers s ∧
    ((∀ p ∈ splitMarker s, p ≠ []) →
      altFrom false ((parse_and_format_bullet s).map Prod.snd) = true) := by
  have hlen : (splitMarker s).length % 2 = 1 := by
    rw [length_splitMarker]; omega
  have hbr : parse_and_format_bullet s
      = (List.enumFrom 0 (splitMarker s)).filterMap segStep := by
    rw [parse_and_format_bullet, if_neg (by omega)]
    rfl
  constructor
  · rw [hbr, flatten_texts_filterMap (splitMarker s) 0, flatten_splitMarker]
  · intro hne
    rw [hbr]
    exact altFrom_filterMap (splitMarker s) 0 hne

/-- Witness for C1 at `"a**b**c"`: two `**` tokens and no empty parts. -/
theorem claim_C1_witness :
    countMarkers ("a**b**c".toList) % 2 = 0 ∧
    ((parse_and_format_bullet ("a**b**c".toList)).map Prod.fst).flatten
      = removeMarkers ("a**b**c".toList) ∧
    altFrom false ((parse_and_format_bullet ("a**b**c".toList)).map Prod.snd) = true :=
  ⟨by decide, (claim_C1 ("a**b**c".toList) (by decide)).1,
   (claim_C1 ("a**b**c".toList) (by decide)).2 (by decide)⟩

/-- Claim C2: when the heading is found, `add_content_to_section` returns
`true` and splices the rendered block right after the heading paragraph,
leaving the paragraphs before the heading and after the insertion point
unchanged and in order; removing the spacer paragraphs from the block leaves
exactly one title paragraph per `(title, bullets)` entry of each group
followed by one bullet paragraph per bullet, in payload order; and every
bullet paragraph's text is the glyph prefix followed by the segment texts. -/
theorem claim_C2 (doc : List Paragraph) (title : Chars) (content : List ContentItem)
    (h : find_section doc title ≠ -1) :
    (add_content_to_section doc title content).1 = true ∧
    (add_content_to_section doc title content).2
      = doc.take ((find_section doc title).toNat + 1) ++ renderContent content
          ++ doc.drop ((find_section doc title).toNat + 1) ∧
    (renderContent content).filter (fun p => !(p == spacerParagraph))
      = content.flatMap itemParas ∧
    ∀ b : Chars, (bulletParagraph b).text
      = bulletMark ++ ((parse_and_format_bullet b).map Prod.fst).flatten := by
  have he := add_content_found doc title content h
  refine ⟨by rw [he], by rw [he], filter_renderWith content.getLast? content, ?_⟩
  intro b
  have hfun : (Run.text ∘ fun seg : Chars × Bool =>
      ({ text := seg.1, bold := some seg.2, fontName := some timesNewRoman,
         fontSize := some 1100 } : Run)) = Prod.fst := by
    funext seg
    rfl
  simp [bulletParagraph, Paragraph.text, List.map_map, hfun]

/-- Witness for C2 on a concrete two-group payload. -/
theorem claim_C2_witness :
    find_section expDoc expTitle ≠ -1 ∧
    (add_content_to_section expDoc expTitle demoContent).2
      = expDoc.take ((find_section expDoc expTitle).toNat + 1) ++ renderContent demoContent
          ++ expDoc.drop ((find_section expDoc expTitle).toNat + 1) :=
  ⟨by decide, (claim_C2 expDoc expTitle demoContent (by decide)).2.1⟩

/-- Claim C3, counterexample: the code decides spacer placement with
`item != content_json[-1]`, a value comparison against the last element, not
a positional check.  With payload `[dup, mid, dup]` the first group equals
the last by value, so no spacer follows it although its index is not final:
the result differs from the splice the claim describes. -/
theorem claim_C3_counterexample :
    find_section expDoc expTitle ≠ -1 ∧
    (add_content_to_section expDoc expTitle [dupItem, midItem, dupItem]).2
      ≠ expDoc.take 1 ++ positionalRender [dupItem, midItem, dupItem]
          ++ expDoc.drop 1 := by
  refine ⟨by decide, by decide⟩

/-- Claim C3, amended: the spacer check runs once per `(title, bullets)`
entry of each item and compares the item by value with the payload's last
element, so for payloads whose non-final groups are single-key mappings (as
the payload schema prescribes) and in which no earlier group equals the
final group by value, exactly one spacer paragraph follows every group at a
non-final index and none follows the final group. -/
theorem claim_C3 (doc : List Paragraph) (title : Chars) (content : List ContentItem)
    (h : find_section doc title ≠ -1)
    (hdist : ∀ item ∈ content.dropLast, content.getLast? ≠ some item)
    (hsingle : ∀ item ∈ content.dropLast, item.length = 1) :
    (add_content_to_section doc title content).2
      = doc.take ((find_section doc title).toNat + 1) ++ positionalRender content
          ++ doc.drop ((find_section doc title).toNat + 1) := by
  rw [add_content_found doc title content h,
    ← renderWith_positional content hdist hsingle]

/-- Witness for C3 on two distinct single-key groups. -/
theorem claim_C3_witness :
    find_section expDoc expTitle ≠ -1 ∧
    (add_content_to_section expDoc expTitle [roleA, roleB]).2
      = expDoc.take ((find_section expDoc expTitle).toNat + 1)
          ++ positionalRender [roleA, roleB]
          ++ expDoc.drop ((find_section expDoc expTitle).toNat + 1) :=
  ⟨by decide,
   claim_C3 expDoc expTitle [roleA, roleB] (by decide) (by decide) (by decide)⟩

/-- Claim C4: for an odd number of `**` tokens (an even number of split
parts) the parser returns exactly the original string, unbolded. -/
theorem claim_C4 (s : Chars) (h : countMarkers s % 2 = 1) :
    parse_and_format_bullet s = [(s, false)] := by
  have hev : (splitMarker s).length % 2 = 0 := by
    rw [length_splitMarker]; omega
  rw [parse_and_format_bullet, if_pos hev]

/-- Witness for C4 at `"a**b"` (one `**` token). -/
theorem claim_C4_witness :
    countMarkers ("a**b".toList) % 2 = 1 ∧
    parse_and_format_bullet ("a**b".toList) = [(("a**b".toList : Chars), false)] :=
  ⟨by decide, claim_C4 ("a**b".toList) (by decide)⟩

/-- Claim C5: `find_section` returns the index of the first paragraph whose
stripped, upper-cased text contains the upper-cased heading as a substring,
and `-1` when no paragraph matches; in particular heading `"EXPERIENCE"`
matches a paragraph with text `"  Experience  "`. -/
theorem claim_C5 (doc : List Paragraph) (title : Chars) :
    (find_section doc title
      = match firstMatchIdx (matchesTitle title) doc with
        | none => -1
        | some k => (k : Int)) ∧
    matchesTitle ("EXPERIENCE".toList) { runs := [{ text := "  Experience  ".toList }] }
      = true := by
  constructor
  · rw [find_section, findSectionAux_spec title doc 0]
    cases hm : firstMatchIdx (matchesTitle title) doc with
    | none => rfl
    | some k => simp
  · decide

/-- Claim C6: when the heading is missing, `add_content_to_section` reports
failure and leaves the document untouched: same paragraph list, hence same
length and same texts. -/
theorem claim_C6 (doc : List Paragraph) (title : Chars) (content : List ContentItem)
    (h : find_section doc title = -1) :
    (add_content_to_section doc title content).1 = false ∧
    (add_content_to_section doc title content).2 = doc ∧
    (add_content_to_section doc title content).2.length = doc.length ∧
    (add_content_to_section doc title content).2.map Paragraph.text
      = doc.map Paragraph.text := by
  rw [add_content_to_section, if_pos h]
  exact ⟨rfl, rfl, rfl, rfl⟩

/-- Witness for C6: a document without the `EXPERIENCE` heading. -/
theorem claim_C6_witness :
    find_section eduDoc expTitle = -1 ∧
    (add_content_to_section eduDoc expTitle [roleA]).1 = false ∧
    (add_content_to_section eduDoc expTitle [roleA]).2 = eduDoc :=
  ⟨by decide, (claim_C6 eduDoc expTitle [roleA] (by decide)).1,
   (claim_C6 eduDoc expTitle [roleA] (by decide)).2.1⟩

/-- Claim C7: the three-case rule of `parse_and_format_skill` — delegate to
the bullet parser when `**` occurs, else split at the first colon with the
prefix (colon included) bold, else one unbolded segment — together with the
three concrete examples from the spec. -/
theorem claim_C7 (s : Chars) :
    (containsSub boldMarker s = true →
      parse_and_format_skill s = parse_and_format_bullet s) ∧
    (containsSub boldMarker s = false →
      ∀ pre post : Chars, s = pre ++ ':' :: post → ':' ∉ pre →
        parse_and_format_skill s = [(pre ++ [':'], true), (post, false)]) ∧
    (containsSub boldMarker s = false → containsSub [':'] s = false →
      parse_and_format_skill s = [(s, false)]) ∧
    parse_and_format_skill ("**Languages:** Java, Python".toList)
      = [("Languages:".toList, true), (" Java, Python".toList, false)] ∧
    parse_and_format_skill ("Languages: Java, Python".toList)
      = [("Languages:".toList, true), (" Java, Python".toList, false)] ∧
    parse_and_format_skill ("Misc".toList) = [(("Misc".toList : Chars), false)] := by
  refine ⟨?_, ?_, ?_, by decide, by decide, by decide⟩
  · intro hbm
    rw [parse_and_format_skill, if_pos hbm]
  · intro hbm pre post hs hpre
    rw [parse_and_format_skill, if_neg (by simp [hbm]),
      if_pos (show containsSub [':'] s = true from by
        rw [hs]; exact containsSub_append_single ':' pre post)]
    rw [hs, splitFirst_single_of ':' pre post hpre]
  · intro hbm hcol
    rw [parse_and_format_skill, if_neg (by simp [hbm]), if_neg (by simp [hcol])]

/-- Witness for C7: the colon branch applied at a concrete skill line. -/
theorem claim_C7_witness :
    parse_and_format_skill ("Languages: Java, Python".toList)
      = [("Languages".toList ++ [':'], true), (" Java, Python".toList, false)] :=
  (claim_C7 ("Languages: Java, Python".toList)).2.1 (by decide)
    ("Languages".toList) (" Java, Python".toList) (by decide) (by decide)

/-- Claim C8: when the heading is found, `add_skills_to_section` returns
`true` and inserts exactly one paragraph per skill line right after the
heading, in order, with no extra paragraphs; each inserted paragraph's runs
carry exactly the texts and bold flags of `parse_and_format_skill`'s
segments; and the call returns `false` exactly when the heading is missing,
leaving the document unchanged. -/
theorem claim_C8 (doc : List Paragraph) (title : Chars) (skills : List Chars) :
    (find_section doc title ≠ -1 →
      add_skills_to_section doc title skills
        = (true, doc.take ((find_section doc title).toNat + 1)
            ++ skills.map skillParagraph
            ++ doc.drop ((find_section doc title).toNat + 1))) ∧
    (find_section doc title = -1 →
      add_skills_to_section doc title skills = (false, doc)) ∧
    ∀ sk : Chars, (skillParagraph sk).runs.map (fun r => (r.text, r.bold))
      = (parse_and_format_skill sk).map (fun seg => (seg.1, some seg.2)) := by
  refine ⟨add_skills_found doc title skills, ?_, ?_⟩
  · intro h
    rw [add_skills_to_section, if_pos h]
  · intro sk
    have hfun : ((fun r : Run => (r.text, r.bold)) ∘ fun seg : Chars × Bool =>
        ({ text := seg.1, bold := some seg.2, fontName := some timesNewRoman,
           fontSize := some 1100 } : Run)) = fun seg => (seg.1, some seg.2) := by
      funext seg
      rfl
    simp [skillParagraph, List.map_map, hfun]

/-- Witness for C8 on a concrete skills document and payload. -/
theorem claim_C8_witness :
    find_section skillsDoc skillsTitle ≠ -1 ∧
    add_skills_to_section skillsDoc skillsTitle demoSkills
      = (true, skillsDoc.take ((find_section skillsDoc skillsTitle).toNat + 1)
          ++ demoSkills.map skillParagraph
          ++ skillsDoc.drop ((find_section skillsDoc skillsTitle).toNat + 1)) :=
  ⟨by decide, (claim_C8 skillsDoc skillsTitle demoSkills).1 (by decide)⟩

/-- Claim C9, counterexample: `"a****b"` is well-formed (two `**` tokens) and
parses to `[("a", plain), ("b", plain)]` — the empty middle part is dropped —
but re-rendering gives `"ab"`, which re-parses to the single segment
`("ab", plain)`, not the original sequence.  The round-trip claim as stated
is therefore false. -/
theorem claim_C9_counterexample :
    countMarkers ("a****b".toList) % 2 = 0 ∧
    parse_and_format_bullet ("a****b".toList)
      = [("a".toList, false), ("b".toList, false)] ∧
    renderSegments (parse_and_format_bullet ("a****b".toList)) = "ab".toList ∧
    parse_and_format_bullet (renderSegments (parse_and_format_bullet ("a****b".toList)))
      ≠ parse_and_format_bullet ("a****b".toList) := by
  refine ⟨by decide, by decide, by decide, by decide⟩

/-- Claim C9, amended: the round-trip holds for every well-formed input whose
`**` split has no empty part (no adjacent, leading, or trailing delimiters):
re-parsing the re-rendered segment sequence reproduces it, because rendering
then reconstructs the input exactly. -/
theorem claim_C9 (s : Chars) (h : countMarkers s % 2 = 0)
    (hne : ∀ p ∈ splitMarker s, p ≠ []) :
    parse_and_format_bullet (renderSegments (parse_and_format_bullet s))
      = parse_and_format_bullet s := by
  have hlen : (splitMarker s).length % 2 = 1 := by
    rw [length_splitMarker]; omega
  have hbr : parse_and_format_bullet s
      = (List.enumFrom 0 (splitMarker s)).filterMap segStep := by
    rw [parse_and_format_bullet, if_neg (by omega)]
    rfl
  have hrender : renderSegments (parse_and_format_bullet s) = s := by
    rw [hbr, filterMap_segStep_eq_map (splitMarker s) 0 hne,
      (renderParity (splitMarker s) 0).1 rfl hlen]
    exact joinSep_splitMarker s
  rw [hrender]

/-- Witness for C9 at `"a**b**c"`. -/
theorem claim_C9_witness :
    countMarkers ("a**b**c".toList) % 2 = 0 ∧
    parse_and_format_bullet (renderSegments (parse_and_format_bullet ("a**b**c".toList)))
      = parse_and_format_bullet ("a**b**c".toList) :=
  ⟨by decide, claim_C9 ("a**b**c".toList) (by decide) (by decide)⟩

/-- Claim C10: the empty string parses to the empty segment sequence, so a
bullet paragraph built from it carries only the glyph run (its text is just
the glyph prefix); and for every well-formed input no returned segment has
empty text, since empty parts are dropped rather than emitted. -/
theorem claim_C10 :
    parse_and_format_bullet [] = [] ∧
    (bulletParagraph []).text = bulletMark ∧
    ∀ s : Chars, countMarkers s % 2 = 0 →
      ∀ seg ∈ parse_and_format_bullet s, seg.1 ≠ [] := by
  refine ⟨by decide, by decide, ?_⟩
  intro s h seg hseg
  have hlen : (splitMarker s).length % 2 = 1 := by
    rw [length_splitMarker]; omega
  rw [parse_and_format_bullet, if_neg (by omega)] at hseg
  rcases List.mem_filterMap.mp hseg with ⟨ip, _, hstep⟩
  rw [segStep] at hstep
  by_cases hemp : ip.2.isEmpty
  · rw [if_pos hemp] at hstep
    exact absurd hstep (by simp)
  · rw [if_neg hemp] at hstep
    injection hstep with hstep
    have hip : ip.2 ≠ [] := fun hc => hemp (by rw [hc]; rfl)
    rw [← hstep]
    exact hip

/-- Witness for C10's universally quantified part at `"x**y**"`. -/
theorem claim_C10_witness :
    countMarkers ("x**y**".toList) % 2 = 0 ∧
    ∀ seg ∈ parse_and_format_bullet ("x**y**".toList), seg.1 ≠ [] :=
  ⟨by decide, claim_C10.2.2 ("x**y**".toList) (by decide)⟩

end ResumeApp
